import Mathlib

/-
Verification of the training-engine specification (ParameterBag / HyperParameters,
HookRegistry, TrainingEngine) of the lightnet engine tutorial.

The repository ships only the tutorial notebook describing the engine; the engine
implementation itself is not part of the available sources.  The definitions below
are therefore modelled from the specification text, faithful to its words, and the
claims are settled against this model.
-/

namespace EngineSpec

/-! ## ParameterBag (HyperParameters)

Attribute names are modelled as lists of characters (Python strings); the private
marker is a leading underscore character. -/

/-- Modelled from the spec: a name beginning with the private marker (underscore)
is flagged non-serializable (the HyperParameters implementation is not in the
available sources). -/
def isPrivate : List Char → Bool
  | [] => false
  | c :: _ => c = '_'

/-- Modelled from the spec: the stored key has the private marker stripped. -/
def stripMarker : List Char → List Char
  | [] => []
  | c :: rest => if c = '_' then rest else c :: rest

/-- Modelled from the spec: an attribute value is either a plain value (saved raw)
or an object exposing the duck-typed serialize/restore pair
(state_dict / load_state_dict); such an object is represented by its current
internal state, which is exactly what its state_dict method returns. -/
inductive Val where
  | plain (d : Nat)
  | obj (st : Nat)
deriving DecidableEq

/-- Does the value expose the restore contract (load_state_dict)? -/
def isObjV : Val → Bool
  | Val.obj _ => true
  | _ => false

/-- One attribute of a ParameterBag: stored key, value, and the serializable flag
(false for attributes set through a private-marker name). -/
structure Entry where
  name : List Char
  value : Val
  serializable : Bool
deriving DecidableEq

/-- A ParameterBag is a finite collection of attributes in insertion order. -/
def Bag := List Entry

/-- First entry stored under a key. -/
def lookupEntry (b : List Entry) (k : List Char) : Option Entry :=
  b.find? (fun e => decide (e.name = k))

/-- Modelled from the spec: `get(name)` returns the stored value, none when the
attribute is absent (AttributeError-kind). -/
def getAttr (b : List Entry) (k : List Char) : Option Val :=
  (lookupEntry b k).map Entry.value

/-- Modelled from the spec: `set(name, value)` stores the value under the
marker-stripped key; a private-marker name marks the attribute non-serializable.
An attribute that is already marked non-serializable stays so when reassigned
through the stripped name (the marked-name list only grows). -/
def setAttr (b : List Entry) (n : List Char) (v : Val) : List Entry :=
  match lookupEntry b (stripMarker n) with
  | some _ =>
      b.map (fun e =>
        if e.name = stripMarker n then
          Entry.mk e.name v (e.serializable && !isPrivate n)
        else e)
  | none => b ++ [Entry.mk (stripMarker n) v (!isPrivate n)]

/-- Modelled from the spec: `describe()` lists every attribute in a stable
(insertion) order, marking the non-serializable ones. -/
def describe (b : List Entry) : List (List Char × Bool) :=
  b.map (fun e => (e.name, e.serializable))

/-- Modelled from the spec: what `save` stores for one value — the delegated
state_dict result for an object exposing the serialize contract, the raw value
otherwise. -/
def serializeVal : Val → Nat
  | Val.plain d => d
  | Val.obj st => st

/-- Modelled from the spec: `save` writes the mapping from every serializable
attribute's key to its serialized value. -/
def save (b : List Entry) : List (List Char × Nat) :=
  (b.filter (fun e => e.serializable)).map (fun e => (e.name, serializeVal e.value))

/-- Replace the value stored under a key, leaving names and flags unchanged. -/
def updVal (b : List Entry) (k : List Char) (v : Val) : List Entry :=
  b.map (fun e => if e.name = k then Entry.mk e.name v e.serializable else e)

/-- Modelled from the spec: loading one key/value pair — if the bag already holds
a matching attribute exposing the restore contract, its load_state_dict is called
with the loaded sub-state (in-place mutation); otherwise the raw loaded value is
assigned, creating the attribute if it did not previously exist. -/
def loadOne (b : List Entry) (k : List Char) (s : Nat) : List Entry :=
  match getAttr b k with
  | some (Val.obj _) => updVal b k (Val.obj s)
  | some _ => updVal b k (Val.plain s)
  | none => b ++ [Entry.mk k (Val.plain s) true]

/-- Modelled from the spec: `load(path)` applies `loadOne` to each stored pair in
order. -/
def load (b : List Entry) : List (List Char × Nat) → List Entry
  | [] => b
  | kv :: rest => load (loadOne b kv.1 kv.2) rest

/-! ## HookRegistry -/

/-- The four lifecycle events at which hooks can be registered. -/
inductive HookEvent where
  | batch_start
  | batch_end
  | epoch_start
  | epoch_end
deriving DecidableEq

/-- A registered hook: lifecycle event, stride, and an identifier standing for
the callable. -/
structure Hook where
  event : HookEvent
  stride : Nat
  hookId : Nat
deriving DecidableEq

/-- Modelled from the spec: `register(event, stride, callable)` appends the hook
in registration order; a stride below 1 fails with a ValueError-kind error (the
HookRegistry implementation is not in the available sources). -/
def register (reg : List Hook) (e : HookEvent) (s : Nat) (i : Nat) :
    Except (List Char) (List Hook) :=
  if s < 1 then Except.error ('s' :: 't' :: 'r' :: 'i' :: 'd' :: 'e' :: [])
  else Except.ok (reg ++ [Hook.mk e s i])

/-- Modelled from the spec: `fire(event, counter_value)` invokes, in registration
order, every hook registered for the event whose stride evenly divides the
counter value, provided the counter value is positive. -/
def fire (reg : List Hook) (e : HookEvent) (c : Nat) : List Hook :=
  reg.filter (fun h => decide (h.event = e) && decide (0 < c) && decide (c % h.stride = 0))

/-! ## TrainingEngine main loop

The run of the engine is embedded as a trace of the observable events: every
hook-firing point (with the counter value passed to `fire` and the value the
bag's batch counter holds at that moment), every `process_batch` call with the
data item pulled from the source, and every `train_batch` call. -/

/-- Engine state machine states. -/
inductive EngineStatus where
  | IDLE
  | RUNNING
  | STOPPED
deriving DecidableEq

/-- One observable event of a run. -/
inductive TraceEvent (α : Type) where
  | fireHooks (ev : HookEvent) (counter : Nat) (bagBatch : Nat)
  | processBatch (item : α)
  | trainBatch
deriving DecidableEq

/-- The trace of one main-loop iteration whose accumulation group is `g` and
whose pre-increment batch counter is `b`: `batch_start` hooks fired with the
upcoming batch number while the bag still holds `b`, the `process_batch` calls,
the `train_batch` call, then `batch_end` hooks fired with the incremented
counter. -/
def mkSeg {α : Type} (b : Nat) (g : List α) : List (TraceEvent α) :=
  TraceEvent.fireHooks HookEvent.batch_start (b + 1) b ::
    (g.map TraceEvent.processBatch ++
      [TraceEvent.trainBatch, TraceEvent.fireHooks HookEvent.batch_end (b + 1) (b + 1)])

/-- Modelled from the spec, fuel-indexed for structural recursion (the Engine
implementation is not in the available sources): one main-loop iteration fires
`batch_start` hooks with the upcoming batch number (bag counter still
pre-increment), pulls up to `mini_batch_size` items from the source calling
`process_batch` on each, calls `train_batch` once, increments the batch counter,
fires `batch_end` hooks with the new value, and evaluates `quit`; the loop exits
when `quit` returns true or the source is exhausted.  The fuel is always
instantiated with the source length, which bounds the number of iterations. -/
def runLoopF (M : Nat) (q : Nat → Bool) {α : Type} :
    Nat → Nat → List α → List (TraceEvent α) × Nat × EngineStatus
  | _, b, [] => ([], b, EngineStatus.STOPPED)
  | 0, b, _ => ([], b, EngineStatus.STOPPED)
  | fuel + 1, b, x :: xs =>
      if q (b + 1) then (mkSeg b (x :: xs.take (M - 1)), b + 1, EngineStatus.STOPPED)
      else
        (mkSeg b (x :: xs.take (M - 1)) ++ (runLoopF M q fuel (b + 1) (xs.drop (M - 1))).1,
         (runLoopF M q fuel (b + 1) (xs.drop (M - 1))).2)

/-- The main loop of a run: starts at bag batch counter `b` and consumes the
finite data source. -/
def runLoop (M : Nat) (q : Nat → Bool) {α : Type} (b : Nat) (data : List α) :
    List (TraceEvent α) × Nat × EngineStatus :=
  runLoopF M q data.length b data

/-- Modelled from the spec: an engine whose `mini_batch_size` attribute is absent
uses 1 — the same loop, not a separate code path. -/
def runEngine (mbs : Option Nat) (q : Nat → Bool) {α : Type} (b : Nat) (data : List α) :
    List (TraceEvent α) × Nat × EngineStatus :=
  runLoop (mbs.getD 1) q b data

/-- Number of `train_batch` calls in a trace. -/
def countTrain {α : Type} : List (TraceEvent α) → Nat
  | [] => 0
  | TraceEvent.trainBatch :: rest => countTrain rest + 1
  | _ :: rest => countTrain rest

/-- Number of `process_batch` calls in a trace. -/
def countProc {α : Type} : List (TraceEvent α) → Nat
  | [] => 0
  | TraceEvent.processBatch _ :: rest => countProc rest + 1
  | _ :: rest => countProc rest

/-- The data items passed to `process_batch`, in order. -/
def procItems {α : Type} : List (TraceEvent α) → List α
  | [] => []
  | TraceEvent.processBatch x :: rest => x :: procItems rest
  | _ :: rest => procItems rest

/-- Helper for `procSegments`: running count of `process_batch` calls, emitted at
each `train_batch`. -/
def procSegAux {α : Type} : List (TraceEvent α) → Nat → List Nat
  | [], _ => []
  | TraceEvent.trainBatch :: rest, acc => acc :: procSegAux rest 0
  | TraceEvent.processBatch _ :: rest, acc => procSegAux rest (acc + 1)
  | TraceEvent.fireHooks _ _ _ :: rest, acc => procSegAux rest acc

/-- Number of `process_batch` calls before the first `train_batch` call and
between each pair of consecutive `train_batch` calls. -/
def procSegments {α : Type} (t : List (TraceEvent α)) : List Nat :=
  procSegAux t 0

/-- Fuel-indexed helper for `chunkSizes`; the fuel is always instantiated with
the remaining length, which bounds the number of groups. -/
def chunkSizesF (M : Nat) : Nat → Nat → List Nat
  | _, 0 => []
  | 0, _ + 1 => []
  | fuel + 1, l + 1 => (1 + min (M - 1) l) :: chunkSizesF M fuel (l - min (M - 1) l)

/-- The expected accumulation-group sizes for a source of length `L` and
mini-batch size `M`: each group takes `min M remaining` items until the source
is exhausted. -/
def chunkSizes (M L : Nat) : List Nat :=
  chunkSizesF M L L

/-- The counter values passed to `batch_start` hook firings, in order. -/
def batchStartCounters {α : Type} : List (TraceEvent α) → List Nat
  | [] => []
  | TraceEvent.fireHooks HookEvent.batch_start c _ :: rest => c :: batchStartCounters rest
  | _ :: rest => batchStartCounters rest

/-- Does every `process_batch` event come immediately before a `train_batch`
event? -/
def procFollowedByTrain {α : Type} : List (TraceEvent α) → Bool
  | [] => true
  | TraceEvent.processBatch _ :: rest =>
      match rest with
      | TraceEvent.trainBatch :: _ => procFollowedByTrain rest
      | _ => false
  | _ :: rest => procFollowedByTrain rest

/-! ## Engine attribute delegation and construction -/

/-- An engine instance for attribute lookup: the keyword arguments supplied at
construction (directly-owned attributes, in order) and the owned ParameterBag. -/
structure EngineObj where
  own : List (List Char × Val)
  bag : List Entry

/-- Modelled from the spec: engine construction takes the bag, the data source
(held separately, not an attribute) and keyword arguments, which become
directly-owned engine attributes; the bag is stored untouched. -/
def mkEngine (params : List Entry) (kwargs : List (List Char × Val)) : EngineObj :=
  EngineObj.mk kwargs params

/-- A directly-owned engine attribute (from construction keyword arguments). -/
def ownAttr (eng : EngineObj) (k : List Char) : Option Val :=
  (eng.own.find? (fun kv => decide (kv.1 = k))).map Prod.snd

/-- Modelled from the spec: reading an attribute on the engine finds a
directly-owned attribute first and otherwise forwards the read to the owned
ParameterBag before failing. -/
def engineGetAttr (eng : EngineObj) (k : List Char) : Option Val :=
  match ownAttr eng k with
  | some v => some v
  | none => getAttr eng.bag k

/-! ## Required extension points -/

/-- Error kinds distinguished by the specification's taxonomy. -/
inductive EngineError where
  | configurationError
  | attributeError
deriving DecidableEq

/-- A concrete engine class: each required extension point is either implemented
or absent.  The payload type is opaque to the engine. -/
structure EngineImpl where
  processBatchImpl : Option (Nat → Nat)
  trainBatchImpl : Option (Nat → Nat)

/-- Defining a concrete engine class never fails, whatever methods it omits. -/
def defineEngine (p t : Option (Nat → Nat)) : EngineImpl :=
  EngineImpl.mk p t

/-- Modelled from the spec: the first invocation of the engine checks the
required extension points and fails with a ConfigurationError-kind error when
`process_batch` or `train_batch` is absent; otherwise the run proceeds. -/
def invokeEngine (cls : EngineImpl) (M : Nat) (q : Nat → Bool) {α : Type}
    (b : Nat) (data : List α) :
    Except EngineError (List (TraceEvent α) × Nat × EngineStatus) :=
  if cls.processBatchImpl.isNone || cls.trainBatchImpl.isNone then
    Except.error EngineError.configurationError
  else Except.ok (runLoop M q b data)

/-! ## ParameterBag lemmas -/

lemma lookupEntry_mem {b : List Entry} {k : List Char} {e : Entry}
    (h : lookupEntry b k = some e) : e ∈ b ∧ e.name = k := by
  refine ⟨List.mem_of_find?_eq_some h, ?_⟩
  have hp := List.find?_some h
  simpa using hp

lemma lookupEntry_none_iff {b : List Entry} {k : List Char} :
    lookupEntry b k = none ↔ ∀ e ∈ b, e.name ≠ k := by
  unfold lookupEntry
  rw [List.find?_eq_none]
  simp

lemma lookupEntry_mapIf {b : List Entry} {k : List Char} (f : Entry → Entry)
    (hf : ∀ e, (f e).name = e.name) :
    lookupEntry (b.map (fun e => if e.name = k then f e else e)) k =
      (lookupEntry b k).map f := by
  induction b with
  | nil => rfl
  | cons e rest ih =>
    by_cases h : e.name = k
    · simp [lookupEntry, List.find?_cons, h, hf e]
    · simp only [lookupEntry, List.map_cons, if_neg h] at ih ⊢
      rw [List.find?_cons_of_neg, List.find?_cons_of_neg]
      · exact ih
      · simpa using h
      · simpa using h

lemma lookupEntry_mapIf_ne {b : List Entry} {k k' : List Char} (f : Entry → Entry)
    (hf : ∀ e, (f e).name = e.name) (hne : k' ≠ k) :
    lookupEntry (b.map (fun e => if e.name = k then f e else e)) k' =
      lookupEntry b k' := by
  induction b with
  | nil => rfl
  | cons e rest ih =>
    by_cases h : e.name = k'
    · simp [lookupEntry, List.find?_cons, h, hne]
    · by_cases hek : e.name = k
      · simp only [lookupEntry, List.map_cons, if_pos hek] at ih ⊢
        rw [List.find?_cons_of_neg, List.find?_cons_of_neg]
        · exact ih
        · simpa using h
        · simp [hf e, hek]
          exact fun hc => hne hc.symm
      · simp only [lookupEntry, List.map_cons, if_neg hek] at ih ⊢
        rw [List.find?_cons_of_neg, List.find?_cons_of_neg]
        · exact ih
        · simpa using h
        · simpa using h

lemma lookupEntry_append_one {b : List Entry} {k : List Char} {x : Entry} :
    lookupEntry (b ++ [x]) k = (lookupEntry b k).or (lookupEntry [x] k) := by
  unfold lookupEntry
  exact List.find?_append

lemma stripMarker_of_not_private {n : List Char} (h : isPrivate n = false) :
    stripMarker n = n := by
  cases n with
  | nil => rfl
  | cons c rest =>
    have hc : ¬ c = '_' := by
      intro hc
      rw [isPrivate, hc] at h
      simp at h
    simp [stripMarker, hc]

lemma lookupEntry_single_ne {k k' : List Char} {v : Val} {fl : Bool} (hne : k' ≠ k) :
    lookupEntry [Entry.mk k v fl] k' = none := by
  unfold lookupEntry
  simp only [List.find?]
  have hp : (decide ((Entry.mk k v fl).name = k')) = false := by
    simp
    exact Ne.symm hne
  rw [hp]

lemma getAttr_setAttr_self (b : List Entry) (n : List Char) (v : Val) :
    getAttr (setAttr b n v) (stripMarker n) = some v := by
  unfold setAttr
  split
  · rename_i e0 heq
    unfold getAttr
    rw [lookupEntry_mapIf
      (fun e => Entry.mk e.name v (e.serializable && !isPrivate n)) (fun e => rfl), heq]
    rfl
  · rename_i heq
    unfold getAttr
    rw [lookupEntry_append_one, heq]
    simp [lookupEntry, List.find?]

lemma getAttr_setAttr_ne (b : List Entry) (n : List Char) (v : Val) {k : List Char}
    (hne : k ≠ stripMarker n) :
    getAttr (setAttr b n v) k = getAttr b k := by
  unfold setAttr
  split
  · rename_i e0 heq
    unfold getAttr
    rw [lookupEntry_mapIf_ne
      (fun e => Entry.mk e.name v (e.serializable && !isPrivate n)) (fun e => rfl) hne]
  · unfold getAttr
    rw [lookupEntry_append_one, lookupEntry_single_ne hne]
    cases lookupEntry b k <;> rfl

lemma setAttr_flag_false_all {b : List Entry} {n : List Char} {v : Val}
    (hp : isPrivate n = true) :
    ∀ e ∈ setAttr b n v, e.name = stripMarker n → e.serializable = false := by
  intro e he hname
  unfold setAttr at he
  cases hlk : lookupEntry b (stripMarker n) with
  | some e0 =>
    rw [hlk] at he
    obtain ⟨e1, he1, heq⟩ := List.mem_map.1 he
    by_cases h1 : e1.name = stripMarker n
    · rw [if_pos h1] at heq
      rw [← heq]
      simp [hp]
    · rw [if_neg h1] at heq
      rw [← heq] at hname
      exact absurd hname h1
  | none =>
    rw [hlk] at he
    rcases List.mem_append.1 he with h | h
    · exact absurd hname (lookupEntry_none_iff.1 hlk e h)
    · simp at h
      rw [h]
      simp [hp]

lemma setAttr_flag_false_preserved {b : List Entry} {n : List Char} {v : Val} {e0 : Entry}
    (hlk : lookupEntry b (stripMarker n) = some e0)
    (hall : ∀ e ∈ b, e.name = stripMarker n → e.serializable = false) :
    ∀ e ∈ setAttr b n v, e.name = stripMarker n → e.serializable = false := by
  intro e he hname
  unfold setAttr at he
  rw [hlk] at he
  obtain ⟨e1, he1, heq⟩ := List.mem_map.1 he
  by_cases h1 : e1.name = stripMarker n
  · rw [if_pos h1] at heq
    rw [← heq]
    simp [hall e1 he1 h1]
  · rw [if_neg h1] at heq
    rw [← heq] at hname
    exact absurd hname h1

lemma mem_save_iff {b : List Entry} {k : List Char} {s : Nat} :
    (k, s) ∈ save b ↔
      ∃ e ∈ b, e.serializable = true ∧ e.name = k ∧ serializeVal e.value = s := by
  unfold save
  constructor
  · intro h
    obtain ⟨e, he, heq⟩ := List.mem_map.1 h
    have hf := List.mem_filter.1 he
    refine ⟨e, hf.1, by simpa using hf.2, ?_, ?_⟩
    · exact congrArg Prod.fst heq
    · exact congrArg Prod.snd heq
  · rintro ⟨e, he, hser, hname, hval⟩
    exact List.mem_map.2 ⟨e, List.mem_filter.2 ⟨he, by simp [hser]⟩, by rw [hname, hval]⟩

lemma mem_describe_iff {b : List Entry} {k : List Char} {fl : Bool} :
    (k, fl) ∈ describe b ↔ ∃ e ∈ b, e.name = k ∧ e.serializable = fl := by
  unfold describe
  constructor
  · intro h
    obtain ⟨e, he, heq⟩ := List.mem_map.1 h
    exact ⟨e, he, congrArg Prod.fst heq, congrArg Prod.snd heq⟩
  · rintro ⟨e, he, hname, hser⟩
    exact List.mem_map.2 ⟨e, he, by rw [hname, hser]⟩

lemma save_not_mem_of_flag_false {b : List Entry} {k : List Char}
    (hall : ∀ e ∈ b, e.name = k → e.serializable = false) :
    ∀ s, (k, s) ∉ save b := by
  intro s h
  obtain ⟨e, he, hser, hname, _⟩ := mem_save_iff.1 h
  rw [hall e he hname] at hser
  exact Bool.false_ne_true hser

lemma describe_true_not_mem_of_flag_false {b : List Entry} {k : List Char}
    (hall : ∀ e ∈ b, e.name = k → e.serializable = false) :
    (k, true) ∉ describe b := by
  intro h
  obtain ⟨e, he, hname, hser⟩ := mem_describe_iff.1 h
  rw [hall e he hname] at hser
  exact Bool.false_ne_true hser

lemma describe_false_mem_of_lookup {b : List Entry} {k : List Char} {e : Entry}
    (hlk : lookupEntry b k = some e) (hf : e.serializable = false) :
    (k, false) ∈ describe b := by
  obtain ⟨hmem, hname⟩ := lookupEntry_mem hlk
  exact mem_describe_iff.2 ⟨e, hmem, hname, hf⟩

/-- Does an optional value expose the restore contract? -/
def isObjOpt : Option Val → Bool
  | some (Val.obj _) => true
  | _ => false

lemma getAttr_updVal_self {b : List Entry} {k : List Char} {v : Val} {e : Entry}
    (hlk : lookupEntry b k = some e) :
    getAttr (updVal b k v) k = some v := by
  unfold getAttr updVal
  rw [lookupEntry_mapIf (fun e => Entry.mk e.name v e.serializable) (fun e => rfl), hlk]
  rfl

lemma getAttr_updVal_ne {b : List Entry} {k k' : List Char} {v : Val} (hne : k' ≠ k) :
    getAttr (updVal b k v) k' = getAttr b k' := by
  unfold getAttr updVal
  rw [lookupEntry_mapIf_ne (fun e => Entry.mk e.name v e.serializable) (fun e => rfl) hne]

lemma lookupEntry_of_getAttr_some {b : List Entry} {k : List Char} {v : Val}
    (h : getAttr b k = some v) : ∃ e, lookupEntry b k = some e ∧ e.value = v := by
  unfold getAttr at h
  obtain ⟨e, he, hv⟩ := Option.map_eq_some'.1 h
  exact ⟨e, he, hv⟩

lemma getAttr_loadOne_self (b : List Entry) (k : List Char) (s : Nat) :
    getAttr (loadOne b k s) k =
      some (if isObjOpt (getAttr b k) then Val.obj s else Val.plain s) := by
  unfold loadOne
  split
  · rename_i st heq
    obtain ⟨e, hlke, hv⟩ := lookupEntry_of_getAttr_some heq
    rw [getAttr_updVal_self hlke, heq]
    rfl
  · rename_i v0 hnotobj heq
    obtain ⟨e, hlke, hv⟩ := lookupEntry_of_getAttr_some heq
    rw [getAttr_updVal_self hlke, heq]
    cases v0 with
    | plain d => rfl
    | obj st => exact absurd rfl (hnotobj st)
  · rename_i heq
    have hlk : lookupEntry b k = none := by
      unfold getAttr at heq
      exact Option.map_eq_none'.1 heq
    rw [heq]
    unfold getAttr
    rw [lookupEntry_append_one, hlk]
    simp [lookupEntry, List.find?, isObjOpt]

lemma getAttr_loadOne_ne (b : List Entry) {k k' : List Char} (s : Nat) (hne : k' ≠ k) :
    getAttr (loadOne b k s) k' = getAttr b k' := by
  unfold loadOne
  split
  · exact getAttr_updVal_ne hne
  · exact getAttr_updVal_ne hne
  · unfold getAttr
    rw [lookupEntry_append_one, lookupEntry_single_ne hne]
    cases lookupEntry b k' <;> rfl

lemma getAttr_load_not_mem {f : List (List Char × Nat)} {b : List Entry} {k : List Char}
    (h : k ∉ f.map Prod.fst) :
    getAttr (load b f) k = getAttr b k := by
  induction f generalizing b with
  | nil => rfl
  | cons kv rest ih =>
    have h1 : k ≠ kv.1 := by
      intro hc
      exact h (by simp [hc])
    have h2 : k ∉ rest.map Prod.fst := by
      intro hc
      exact h (by simp [hc])
    unfold load
    rw [ih h2, getAttr_loadOne_ne _ _ h1]

lemma getAttr_load_mem {f : List (List Char × Nat)} {b : List Entry} {k : List Char} {s : Nat}
    (hnd : (f.map Prod.fst).Nodup) (hmem : (k, s) ∈ f) :
    getAttr (load b f) k =
      some (if isObjOpt (getAttr b k) then Val.obj s else Val.plain s) := by
  induction f generalizing b with
  | nil => exact absurd hmem (List.not_mem_nil _)
  | cons kv rest ih =>
    rw [List.map_cons, List.nodup_cons] at hnd
    rcases List.mem_cons.1 hmem with h | h
    · subst h
      have hnr : k ∉ rest.map Prod.fst := hnd.1
      unfold load
      rw [getAttr_load_not_mem hnr]
      exact getAttr_loadOne_self b k s
    · have hk1 : k ≠ kv.1 := by
        intro hc
        exact hnd.1 (hc ▸ List.mem_map_of_mem Prod.fst h)
      unfold load
      rw [ih hnd.2 h, getAttr_loadOne_ne _ _ hk1]

/-! ## Claims about the ParameterBag -/

/-- Claim C2: saving a ParameterBag and then loading the saved file restores
every non-private attribute present at save time — a value exposing the
duck-typed serialize/restore pair is persisted as its state_dict result and
restored by calling load_state_dict on the matching already-present object with
exactly that persisted sub-state (in-place mutation), while every other
non-private attribute round-trips with its own raw value, being created in the
target bag if it did not previously exist. -/
theorem claim_c2_roundtrip (b btgt : List Entry)
    (hnd : (b.map Entry.name).Nodup)
    (hmatch : ∀ e ∈ b, e.serializable = true →
      isObjOpt (getAttr btgt e.name) = isObjV e.value) :
    ∀ e ∈ b, e.serializable = true →
      getAttr (load btgt (save b)) e.name = some e.value := by
  intro e he hser
  have hmem : (e.name, serializeVal e.value) ∈ save b :=
    mem_save_iff.2 ⟨e, he, hser, rfl, rfl⟩
  have hkeys : ((save b).map Prod.fst).Nodup := by
    have hmap : (save b).map Prod.fst = (b.filter (fun e => e.serializable)).map Entry.name := by
      unfold save
      rw [List.map_map]
      rfl
    rw [hmap]
    exact List.Nodup.sublist (List.Sublist.map Entry.name (List.filter_sublist b)) hnd
  rw [getAttr_load_mem hkeys hmem, hmatch e he hser]
  cases e.value with
  | plain d => rfl
  | obj st => rfl

/-- Witness for C2 at a concrete bag: a delegating attribute and a plain one both
round-trip through save and load. -/
theorem claim_c2_roundtrip_witness :
    getAttr (load [Entry.mk (['n']) (Val.obj 77) true]
        (save [Entry.mk (['n']) (Val.obj 5) true, Entry.mk (['f']) (Val.plain 9) true]))
      (['n']) = some (Val.obj 5) :=
  claim_c2_roundtrip
    [Entry.mk (['n']) (Val.obj 5) true, Entry.mk (['f']) (Val.plain 9) true]
    [Entry.mk (['n']) (Val.obj 77) true]
    (by decide) (by decide)
    (Entry.mk (['n']) (Val.obj 5) true) (by decide) rfl

/-- Claim C3: setting an attribute through a private-marker name stores it under
the stripped key, leaves it readable and writable there, flags it
non-serializable in describe, and keeps it out of the save mapping and out of
any bag loaded from that mapping. -/
theorem claim_c3_private_marker (b : List Entry) (n : List Char) (v w : Val)
    (hp : isPrivate n = true) (hstrip : isPrivate (stripMarker n) = false) :
    getAttr (setAttr b n v) (stripMarker n) = some v ∧
    getAttr (setAttr (setAttr b n v) (stripMarker n) w) (stripMarker n) = some w ∧
    (stripMarker n, false) ∈ describe (setAttr b n v) ∧
    (stripMarker n, true) ∉ describe (setAttr b n v) ∧
    (∀ s, (stripMarker n, s) ∉ save (setAttr b n v)) ∧
    getAttr (load [] (save (setAttr b n v))) (stripMarker n) = none := by
  have hget : getAttr (setAttr b n v) (stripMarker n) = some v := getAttr_setAttr_self b n v
  have hall : ∀ e ∈ setAttr b n v, e.name = stripMarker n → e.serializable = false :=
    setAttr_flag_false_all hp
  obtain ⟨e1, hlk1, hv1⟩ := lookupEntry_of_getAttr_some hget
  have hf1 : e1.serializable = false :=
    hall e1 (lookupEntry_mem hlk1).1 (lookupEntry_mem hlk1).2
  have hnk : stripMarker n ∉ (save (setAttr b n v)).map Prod.fst := by
    intro hc
    obtain ⟨kv, hkv, hfst⟩ := List.mem_map.1 hc
    have hkv2 : (stripMarker n, kv.2) ∈ save (setAttr b n v) := by
      rw [show (stripMarker n, kv.2) = kv from by rw [← hfst]]
      exact hkv
    exact save_not_mem_of_flag_false hall kv.2 hkv2
  refine ⟨hget, ?_, ?_, ?_, ?_, ?_⟩
  · have := getAttr_setAttr_self (setAttr b n v) (stripMarker n) w
    rwa [stripMarker_of_not_private hstrip] at this
  · exact describe_false_mem_of_lookup hlk1 hf1
  · exact describe_true_not_mem_of_flag_false hall
  · exact save_not_mem_of_flag_false hall
  · rw [getAttr_load_not_mem hnk]
    rfl

/-- Witness for C3 at a concrete private-marker name. -/
theorem claim_c3_private_marker_witness :
    getAttr (setAttr [] (['_', 'b']) (Val.plain 3)) (['b']) = some (Val.plain 3) ∧
    getAttr (setAttr (setAttr [] (['_', 'b']) (Val.plain 3)) (['b']) (Val.plain 6)) (['b']) =
      some (Val.plain 6) ∧
    ((['b'] : List Char), false) ∈ describe (setAttr [] (['_', 'b']) (Val.plain 3)) ∧
    ((['b'] : List Char), true) ∉ describe (setAttr [] (['_', 'b']) (Val.plain 3)) ∧
    (∀ s, ((['b'] : List Char), s) ∉ save (setAttr [] (['_', 'b']) (Val.plain 3))) ∧
    getAttr (load [] (save (setAttr [] (['_', 'b']) (Val.plain 3)))) (['b']) = none :=
  claim_c3_private_marker [] (['_', 'b']) (Val.plain 3) (Val.plain 6) (by decide) (by decide)

/-- Claim C10: an attribute created through a private-marker name keeps its
non-serializable flag when reassigned through the stripped name — it stays
starred in describe and excluded from save. -/
theorem claim_c10_private_flag_sticky (b : List Entry) (k : List Char) (v w : Val)
    (hk : isPrivate k = false) :
    getAttr (setAttr (setAttr b ('_' :: k) v) k w) k = some w ∧
    (k, false) ∈ describe (setAttr (setAttr b ('_' :: k) v) k w) ∧
    (k, true) ∉ describe (setAttr (setAttr b ('_' :: k) v) k w) ∧
    ∀ s, (k, s) ∉ save (setAttr (setAttr b ('_' :: k) v) k w) := by
  have hsm : stripMarker ('_' :: k) = k := by simp [stripMarker]
  have hsk : stripMarker k = k := stripMarker_of_not_private hk
  have hp : isPrivate ('_' :: k) = true := by simp [isPrivate]
  have hall1 : ∀ e ∈ setAttr b ('_' :: k) v, e.name = k → e.serializable = false := by
    have := setAttr_flag_false_all (b := b) (v := v) hp
    rwa [hsm] at this
  have hget1 : getAttr (setAttr b ('_' :: k) v) k = some v := by
    have := getAttr_setAttr_self b ('_' :: k) v
    rwa [hsm] at this
  obtain ⟨e1, hlk1, hv1⟩ := lookupEntry_of_getAttr_some hget1
  have hall2 : ∀ e ∈ setAttr (setAttr b ('_' :: k) v) k w, e.name = k →
      e.serializable = false := by
    have hlk1' : lookupEntry (setAttr b ('_' :: k) v) (stripMarker k) = some e1 := by
      rwa [hsk]
    have hall1' : ∀ e ∈ setAttr b ('_' :: k) v, e.name = stripMarker k →
        e.serializable = false := by
      rwa [hsk]
    have := setAttr_flag_false_preserved (v := w) hlk1' hall1'
    rwa [hsk] at this
  have hget2 : getAttr (setAttr (setAttr b ('_' :: k) v) k w) k = some w := by
    have := getAttr_setAttr_self (setAttr b ('_' :: k) v) k w
    rwa [hsk] at this
  obtain ⟨e2, hlk2, hv2⟩ := lookupEntry_of_getAttr_some hget2
  refine ⟨hget2, ?_, ?_, ?_⟩
  · exact describe_false_mem_of_lookup hlk2
      (hall2 e2 (lookupEntry_mem hlk2).1 (lookupEntry_mem hlk2).2)
  · exact describe_true_not_mem_of_flag_false hall2
  · exact save_not_mem_of_flag_false hall2

/-- Witness for C10: `_baz` set privately, then `baz` reassigned, stays
non-serializable. -/
theorem claim_c10_private_flag_sticky_witness :
    getAttr (setAttr (setAttr [] ('_' :: ['z']) (Val.plain 3)) (['z']) (Val.plain 6)) (['z']) =
      some (Val.plain 6) ∧
    ((['z'] : List Char), false) ∈
      describe (setAttr (setAttr [] ('_' :: ['z']) (Val.plain 3)) (['z']) (Val.plain 6)) ∧
    ((['z'] : List Char), true) ∉
      describe (setAttr (setAttr [] ('_' :: ['z']) (Val.plain 3)) (['z']) (Val.plain 6)) ∧
    ∀ s, ((['z'] : List Char), s) ∉
      save (setAttr (setAttr [] ('_' :: ['z']) (Val.plain 3)) (['z']) (Val.plain 6)) :=
  claim_c10_private_flag_sticky [] (['z']) (Val.plain 3) (Val.plain 6) (by decide)

/-! ## Claims about the HookRegistry -/

/-- Claim C4: a hook registered on an event with stride N fires exactly on the
counter values that are positive multiples of N — once per counter increment,
with no double-firing and no skipped multiples — and co-registered hooks on the
same event fire in registration order (the fired list is a sublist of the
registry). -/
theorem claim_c4_hook_stride (reg : List Hook) (e : HookEvent) (N : Nat) (h : Hook)
    (hN : 1 ≤ N) (hmem : h ∈ reg) (he : h.event = e) (hs : h.stride = N) :
    (∀ c, 1 ≤ c →
      (fire reg e c).count h = (if N ∣ c then reg.count h else 0)) ∧
    ∀ c, (fire reg e c).Sublist reg := by
  constructor
  · intro c hc
    by_cases hdvd : N ∣ c
    · rw [if_pos hdvd]
      have hp : (fun h => decide (h.event = e) && decide (0 < c) &&
          decide (c % h.stride = 0)) h = true := by
        have hmod : c % N = 0 := Nat.dvd_iff_mod_eq_zero.1 hdvd
        simp [he, hs, hmod]
        omega
      unfold fire
      exact List.count_filter hp
    · rw [if_neg hdvd]
      have hmod : ¬ c % N = 0 := fun hm => hdvd (Nat.dvd_iff_mod_eq_zero.2 hm)
      rw [List.count_eq_zero]
      intro hcmem
      have := (List.mem_filter.1 hcmem).2
      rw [hs] at this
      simp [hmod] at this
  · intro c
    exact List.filter_sublist reg

/-- Witness for C4: a stride-10 hook fires at counter 10 and not at counter 7. -/
theorem claim_c4_hook_stride_witness :
    (fire [Hook.mk HookEvent.batch_start 10 0] HookEvent.batch_start 10).count
        (Hook.mk HookEvent.batch_start 10 0) =
      (if (10 : Nat) ∣ 10 then
        ([Hook.mk HookEvent.batch_start 10 0].count (Hook.mk HookEvent.batch_start 10 0))
      else 0) ∧
    (fire [Hook.mk HookEvent.batch_start 10 0] HookEvent.batch_start 7).count
        (Hook.mk HookEvent.batch_start 10 0) =
      (if (10 : Nat) ∣ 7 then
        ([Hook.mk HookEvent.batch_start 10 0].count (Hook.mk HookEvent.batch_start 10 0))
      else 0) :=
  ⟨(claim_c4_hook_stride [Hook.mk HookEvent.batch_start 10 0] HookEvent.batch_start 10
      (Hook.mk HookEvent.batch_start 10 0) (by decide) (by decide) rfl rfl).1 10 (by decide),
   (claim_c4_hook_stride [Hook.mk HookEvent.batch_start 10 0] HookEvent.batch_start 10
      (Hook.mk HookEvent.batch_start 10 0) (by decide) (by decide) rfl rfl).1 7 (by decide)⟩

/-! ## TrainingEngine trace lemmas -/

lemma runLoopF_nil {M : Nat} {q : Nat → Bool} {α : Type} {fu b : Nat} :
    runLoopF M q fu b ([] : List α) = ([], b, EngineStatus.STOPPED) := by
  cases fu <;> rfl

lemma runLoopF_cons {M : Nat} {q : Nat → Bool} {α : Type} {fu b : Nat}
    {x : α} {xs : List α} :
    runLoopF M q (fu + 1) b (x :: xs) =
      if q (b + 1) then (mkSeg b (x :: xs.take (M - 1)), b + 1, EngineStatus.STOPPED)
      else
        (mkSeg b (x :: xs.take (M - 1)) ++ (runLoopF M q fu (b + 1) (xs.drop (M - 1))).1,
         (runLoopF M q fu (b + 1) (xs.drop (M - 1))).2) := rfl

lemma countTrain_append {α : Type} (t1 t2 : List (TraceEvent α)) :
    countTrain (t1 ++ t2) = countTrain t1 + countTrain t2 := by
  induction t1 with
  | nil => simp [countTrain]
  | cons e rest ih => cases e <;> simp [countTrain, ih] <;> omega

lemma countProc_append {α : Type} (t1 t2 : List (TraceEvent α)) :
    countProc (t1 ++ t2) = countProc t1 + countProc t2 := by
  induction t1 with
  | nil => simp [countProc]
  | cons e rest ih => cases e <;> simp [countProc, ih] <;> omega

lemma countTrain_map_proc {α : Type} (g : List α) :
    countTrain (g.map TraceEvent.processBatch) = 0 := by
  induction g with
  | nil => rfl
  | cons x xs ih => simp [countTrain, ih]

lemma countProc_map_proc {α : Type} (g : List α) :
    countProc (g.map TraceEvent.processBatch) = g.length := by
  induction g with
  | nil => rfl
  | cons x xs ih => simp [countProc, ih]

lemma countTrain_mkSeg {α : Type} (b : Nat) (g : List α) :
    countTrain (mkSeg b g) = 1 := by
  simp [mkSeg, countTrain, countTrain_append, countTrain_map_proc]

lemma countProc_mkSeg {α : Type} (b : Nat) (g : List α) :
    countProc (mkSeg b g) = g.length := by
  simp [mkSeg, countProc, countProc_append, countProc_map_proc]

lemma procItems_append {α : Type} (t1 t2 : List (TraceEvent α)) :
    procItems (t1 ++ t2) = procItems t1 ++ procItems t2 := by
  induction t1 with
  | nil => rfl
  | cons e rest ih => cases e <;> simp [procItems, ih]

lemma procItems_map_proc {α : Type} (g : List α) :
    procItems (g.map TraceEvent.processBatch) = g := by
  induction g with
  | nil => rfl
  | cons x xs ih => simp [procItems, ih]

lemma procItems_mkSeg {α : Type} (b : Nat) (g : List α) :
    procItems (mkSeg b g) = g := by
  simp [mkSeg, procItems, procItems_append, procItems_map_proc]

lemma procSegAux_map_proc {α : Type} (g : List α) (t : List (TraceEvent α)) (acc : Nat) :
    procSegAux (g.map TraceEvent.processBatch ++ t) acc = procSegAux t (acc + g.length) := by
  induction g generalizing acc with
  | nil => simp [procSegAux]
  | cons x xs ih =>
    have h2 : procSegAux (List.map TraceEvent.processBatch (x :: xs) ++ t) acc
        = procSegAux (List.map TraceEvent.processBatch xs ++ t) (acc + 1) := rfl
    have h3 : acc + 1 + xs.length = acc + (x :: xs).length := by
      simp only [List.length_cons]
      omega
    rw [h2, ih, h3]

lemma procSegAux_mkSeg_append {α : Type} (b : Nat) (g : List α)
    (t : List (TraceEvent α)) (acc : Nat) :
    procSegAux (mkSeg b g ++ t) acc = (acc + g.length) :: procSegAux t 0 := by
  have h1 : mkSeg b g ++ t =
      TraceEvent.fireHooks HookEvent.batch_start (b + 1) b ::
        (g.map TraceEvent.processBatch ++
          (TraceEvent.trainBatch ::
            TraceEvent.fireHooks HookEvent.batch_end (b + 1) (b + 1) :: t)) := by
    simp [mkSeg]
  rw [h1]
  show procSegAux (g.map TraceEvent.processBatch ++
      (TraceEvent.trainBatch ::
        TraceEvent.fireHooks HookEvent.batch_end (b + 1) (b + 1) :: t)) acc =
    (acc + g.length) :: procSegAux t 0
  rw [procSegAux_map_proc]
  rfl

lemma batchStartCounters_append {α : Type} (t1 t2 : List (TraceEvent α)) :
    batchStartCounters (t1 ++ t2) = batchStartCounters t1 ++ batchStartCounters t2 := by
  induction t1 with
  | nil => rfl
  | cons e rest ih =>
    cases e with
    | fireHooks ev c bb => cases ev <;> simp [batchStartCounters, ih]
    | processBatch x => simp [batchStartCounters, ih]
    | trainBatch => simp [batchStartCounters, ih]

lemma batchStartCounters_map_proc {α : Type} (g : List α) :
    batchStartCounters (g.map TraceEvent.processBatch) = [] := by
  induction g with
  | nil => rfl
  | cons x xs ih => simp [batchStartCounters, ih]

lemma batchStartCounters_mkSeg {α : Type} (b : Nat) (g : List α) :
    batchStartCounters (mkSeg b g) = [b + 1] := by
  simp [mkSeg, batchStartCounters, batchStartCounters_append, batchStartCounters_map_proc]

lemma ceil_div_step {M L : Nat} (hM : 1 ≤ M) (hL : 1 ≤ L) :
    (L + M - 1) / M = ((L - M) + M - 1) / M + 1 := by
  have h1 : L + M - 1 = (L - 1) + M := by omega
  rw [h1, Nat.add_div_right _ hM]
  by_cases h : M ≤ L
  · have h2 : (L - M) + M - 1 = L - 1 := by omega
    rw [h2]
  · have h2 : (L - M) + M - 1 = M - 1 := by omega
    rw [h2, Nat.div_eq_of_lt (by omega), Nat.div_eq_of_lt (by omega)]

lemma chunkSizesF_fuel {M : Nat} (f1 f2 l : Nat) (h1 : l ≤ f1) (h2 : l ≤ f2) :
    chunkSizesF M f1 l = chunkSizesF M f2 l := by
  induction f1 generalizing f2 l with
  | zero =>
    have h0 : l = 0 := by omega
    subst h0
    cases f2 <;> rfl
  | succ g1 ih =>
    cases l with
    | zero => cases f2 <;> rfl
    | succ l0 =>
      cases f2 with
      | zero => omega
      | succ g2 =>
        show (1 + min (M - 1) l0) :: chunkSizesF M g1 (l0 - min (M - 1) l0)
          = (1 + min (M - 1) l0) :: chunkSizesF M g2 (l0 - min (M - 1) l0)
        congr 1
        exact ih g2 (l0 - min (M - 1) l0) (by omega) (by omega)

/-- A run whose quit predicate never fires consumes the whole source: the number
of `train_batch` calls, the group sizes, and the processed items are determined
by the source length and the mini-batch size. -/
lemma runNoQuit {α : Type} {M : Nat} {q : Nat → Bool} (hM : 1 ≤ M)
    (hq : ∀ n, q n = false) :
    ∀ (fu b : Nat) (l : List α), l.length ≤ fu →
      countTrain (runLoopF M q fu b l).1 = (l.length + M - 1) / M ∧
      procSegments (runLoopF M q fu b l).1 = chunkSizes M l.length ∧
      procItems (runLoopF M q fu b l).1 = l := by
  intro fu
  induction fu with
  | zero =>
    intro b l hl
    have h0 : l = [] := List.length_eq_zero.1 (by omega)
    subst h0
    simp [runLoopF_nil, countTrain, procSegments, procSegAux, procItems, chunkSizes,
      chunkSizesF, Nat.div_eq_of_lt (by omega : M - 1 < M)]
  | succ f ih =>
    intro b l hl
    cases l with
    | nil =>
      simp [runLoopF_nil, countTrain, procSegments, procSegAux, procItems, chunkSizes,
        chunkSizesF, Nat.div_eq_of_lt (by omega : M - 1 < M)]
    | cons x xs =>
      have hlen : (x :: xs).length = xs.length + 1 := rfl
      have hdl : (xs.drop (M - 1)).length = xs.length - (M - 1) := List.length_drop _ _
      obtain ⟨ih1, ih2, ih3⟩ := ih (b + 1) (xs.drop (M - 1)) (by omega)
      rw [runLoopF_cons, hq (b + 1), if_neg Bool.false_ne_true]
      refine ⟨?_, ?_, ?_⟩
      · show countTrain (mkSeg b (x :: xs.take (M - 1)) ++
            (runLoopF M q f (b + 1) (xs.drop (M - 1))).1) = _
        rw [countTrain_append, countTrain_mkSeg, ih1]
        have hL1 : 1 ≤ (x :: xs).length := by simp
        have hdm : (xs.drop (M - 1)).length = (x :: xs).length - M := by omega
        rw [hdm, ceil_div_step hM hL1, Nat.add_comm]
      · show procSegments (mkSeg b (x :: xs.take (M - 1)) ++
            (runLoopF M q f (b + 1) (xs.drop (M - 1))).1) = _
        have hrhs : chunkSizes M (x :: xs).length =
            (1 + min (M - 1) xs.length) ::
              chunkSizesF M xs.length (xs.length - min (M - 1) xs.length) := by
          show chunkSizesF M (x :: xs).length (x :: xs).length = _
          simp only [List.length_cons]
          rfl
        unfold procSegments
        rw [procSegAux_mkSeg_append, hrhs]
        congr 1
        · simp [List.length_take]
          omega
        · have ht := ih2
          unfold procSegments chunkSizes at ht
          rw [ht]
          have hdl2 : (xs.drop (M - 1)).length = xs.length - min (M - 1) xs.length := by
            omega
          rw [hdl2]
          exact chunkSizesF_fuel _ _ _ (le_refl _) (by omega)
      · show procItems (mkSeg b (x :: xs.take (M - 1)) ++
            (runLoopF M q f (b + 1) (xs.drop (M - 1))).1) = _
        rw [procItems_append, procItems_mkSeg, ih3]
        simp

/-! ## Claims about the main loop -/

/-- Claim C1: over a finite source of `L` items with `mini_batch_size = M ≥ 1`
and a quit predicate that never fires, `train_batch` is called exactly
`⌈L / M⌉` times, `process_batch` is called exactly `min(M, remaining)` times
between consecutive `train_batch` calls (the final group is short when `M` does
not divide `L`, never padded), and the items pulled from the source, one per
`process_batch` call, are exactly the source items — none dropped. -/
theorem claim_c1_mini_batch_accounting (M : Nat) (hM : 1 ≤ M) {α : Type} (data : List α) :
    countTrain (runLoop M (fun _ => false) 0 data).1 = (data.length + M - 1) / M ∧
    procSegments (runLoop M (fun _ => false) 0 data).1 = chunkSizes M data.length ∧
    procItems (runLoop M (fun _ => false) 0 data).1 = data :=
  runNoQuit hM (fun _ => rfl) data.length 0 data (le_refl _)

/-- Witness for C1: the spec's example scenario — 7 items with mini-batch size 3
give 3 train calls over groups of sizes 3, 3, 1. -/
theorem claim_c1_mini_batch_accounting_witness :
    countTrain (runLoop 3 (fun _ => false) 0 [1, 2, 3, 4, 5, 6, 7]).1 =
      (([1, 2, 3, 4, 5, 6, 7] : List Nat).length + 3 - 1) / 3 ∧
    procSegments (runLoop 3 (fun _ => false) 0 [1, 2, 3, 4, 5, 6, 7]).1 =
      chunkSizes 3 ([1, 2, 3, 4, 5, 6, 7] : List Nat).length ∧
    procItems (runLoop 3 (fun _ => false) 0 [1, 2, 3, 4, 5, 6, 7]).1 =
      [1, 2, 3, 4, 5, 6, 7] :=
  claim_c1_mini_batch_accounting 3 (by decide) [1, 2, 3, 4, 5, 6, 7]

lemma mem_mkSeg_batch_start {α : Type} {b c bb : Nat} {g : List α}
    (h : TraceEvent.fireHooks HookEvent.batch_start c bb ∈ mkSeg b g) :
    c = b + 1 ∧ bb = b := by
  simp [mkSeg] at h
  omega

/-- Every `batch_start` firing point passes the upcoming batch number while the
bag still holds the pre-increment value, and the counters passed to successive
`batch_start` firings are exactly `b+1, b+2, ...`, one per batch. -/
lemma runBatchStart {α : Type} {M : Nat} {q : Nat → Bool} :
    ∀ (fu b : Nat) (l : List α), l.length ≤ fu →
      (∀ c bb, TraceEvent.fireHooks HookEvent.batch_start c bb ∈ (runLoopF M q fu b l).1 →
        c = bb + 1) ∧
      batchStartCounters (runLoopF M q fu b l).1 =
        List.range' (b + 1) (countTrain (runLoopF M q fu b l).1) := by
  intro fu
  induction fu with
  | zero =>
    intro b l hl
    have h0 : l = [] := List.length_eq_zero.1 (by omega)
    subst h0
    simp [runLoopF_nil, batchStartCounters, countTrain]
  | succ f ih =>
    intro b l hl
    cases l with
    | nil => simp [runLoopF_nil, batchStartCounters, countTrain]
    | cons x xs =>
      have hlen : (x :: xs).length = xs.length + 1 := rfl
      have hdl : (xs.drop (M - 1)).length = xs.length - (M - 1) := List.length_drop _ _
      rw [runLoopF_cons]
      by_cases hqb : q (b + 1) = true
      · rw [if_pos hqb]
        constructor
        · intro c bb hmem
          obtain ⟨hc, hbb⟩ := mem_mkSeg_batch_start hmem
          omega
        · show batchStartCounters (mkSeg b (x :: xs.take (M - 1))) =
            List.range' (b + 1) (countTrain (mkSeg b (x :: xs.take (M - 1))))
          rw [batchStartCounters_mkSeg, countTrain_mkSeg, List.range'_one]
      · rw [if_neg hqb]
        obtain ⟨ih1, ih2⟩ := ih (b + 1) (xs.drop (M - 1)) (by omega)
        constructor
        · intro c bb hmem
          show c = bb + 1
          have hmem2 := hmem
          rw [List.mem_append] at hmem2
          rcases hmem2 with hmem2 | hmem2
          · obtain ⟨hc, hbb⟩ := mem_mkSeg_batch_start hmem2
            omega
          · exact ih1 c bb hmem2
        · show batchStartCounters (mkSeg b (x :: xs.take (M - 1)) ++
              (runLoopF M q f (b + 1) (xs.drop (M - 1))).1) = _
          rw [batchStartCounters_append, batchStartCounters_mkSeg, ih2, countTrain_append,
            countTrain_mkSeg]
          have hcomm : 1 + countTrain (runLoopF M q f (b + 1) (xs.drop (M - 1))).1 =
              countTrain (runLoopF M q f (b + 1) (xs.drop (M - 1))).1 + 1 := Nat.add_comm _ _
          rw [hcomm, List.range'_succ]
          rfl

/-- Claim C5: `batch_start` hooks are fired with the counter value of the batch
about to be processed — the value the batch counter takes after the increment —
while the bag still holds the pre-increment value; over a run from counter 0 the
`batch_start` fire points receive exactly the values 1, 2, ..., #train calls, so
a stride-N hook runs immediately before batches N, 2N, 3N, ... -/
theorem claim_c5_batch_start_pre_increment (M : Nat) (hM : 1 ≤ M) (q : Nat → Bool)
    {α : Type} (data : List α) :
    (∀ c bb, TraceEvent.fireHooks HookEvent.batch_start c bb ∈ (runLoop M q 0 data).1 →
      c = bb + 1) ∧
    batchStartCounters (runLoop M q 0 data).1 =
      List.range' 1 (countTrain (runLoop M q 0 data).1) :=
  runBatchStart data.length 0 data (le_refl _)

/-- Witness for C5: with 5 items and mini-batch size 2, the `batch_start`
counters are `[1, 2, 3]`. -/
theorem claim_c5_batch_start_pre_increment_witness :
    batchStartCounters (runLoop 2 (fun _ => false) 0 [10, 20, 30, 40, 50]).1 =
      List.range' 1 (countTrain (runLoop 2 (fun _ => false) 0 [10, 20, 30, 40, 50]).1) :=
  (claim_c5_batch_start_pre_increment 2 (by decide) (fun _ => false) [10, 20, 30, 40, 50]).2

/-- With `mini_batch_size = 1` every `process_batch` call is immediately
followed by a `train_batch` call. -/
lemma runMiniOne {α : Type} {q : Nat → Bool} :
    ∀ (fu b : Nat) (l : List α), l.length ≤ fu →
      procFollowedByTrain (runLoopF 1 q fu b l).1 = true := by
  intro fu
  induction fu with
  | zero =>
    intro b l hl
    have h0 : l = [] := List.length_eq_zero.1 (by omega)
    subst h0
    rfl
  | succ f ih =>
    intro b l hl
    cases l with
    | nil => rfl
    | cons x xs =>
      rw [runLoopF_cons]
      by_cases hqb : q (b + 1) = true
      · rw [if_pos hqb]
        rfl
      · rw [if_neg hqb]
        show procFollowedByTrain ((runLoopF 1 q f (b + 1) (xs.drop (1 - 1))).1) = true
        exact ih (b + 1) (xs.drop (1 - 1)) (by
          have := List.length_drop (1 - 1) xs
          have hlen : (x :: xs).length = xs.length + 1 := rfl
          omega)

/-- Claim C7: an engine without a `mini_batch_size` attribute runs exactly the
same loop as one with `mini_batch_size = 1` — identical trace, final counter and
status on every source — and in that degenerate case every `process_batch` call
is immediately followed by a `train_batch` call. -/
theorem claim_c7_default_mini_batch (q : Nat → Bool) {α : Type} (b : Nat) (data : List α) :
    runEngine none q b data = runEngine (some 1) q b data ∧
    procFollowedByTrain (runEngine none q b data).1 = true :=
  ⟨rfl, runMiniOne data.length b data (le_refl _)⟩

/-- If the quit predicate first returns true at counter value `b + B` and the
source holds enough items for `B` batches, the loop halts right after the `B`-th
batch: final counter `b + B`, status STOPPED, exactly `B` `train_batch` calls
and `min (B*M) L` `process_batch` calls. -/
lemma runQuitAt {α : Type} {M : Nat} {q : Nat → Bool} (hM : 1 ≤ M) :
    ∀ (fu B b : Nat) (l : List α), l.length ≤ fu → 1 ≤ B →
      q (b + B) = true → (∀ j, b < j → j < b + B → q j = false) →
      (B - 1) * M < l.length →
      (runLoopF M q fu b l).2.1 = b + B ∧
      (runLoopF M q fu b l).2.2 = EngineStatus.STOPPED ∧
      countTrain (runLoopF M q fu b l).1 = B ∧
      countProc (runLoopF M q fu b l).1 = min (B * M) l.length := by
  intro fu
  induction fu with
  | zero =>
    intro B b l hl hB hq hfirst hdata
    omega
  | succ f ih =>
    intro B b l hl hB hq hfirst hdata
    cases l with
    | nil =>
      have h0 : ([] : List α).length = 0 := rfl
      omega
    | cons x xs =>
      have hlen : (x :: xs).length = xs.length + 1 := rfl
      have hdl : (xs.drop (M - 1)).length = xs.length - (M - 1) := List.length_drop _ _
      have htk : (xs.take (M - 1)).length = min (M - 1) xs.length := List.length_take _ _
      rw [runLoopF_cons]
      by_cases hB1 : B = 1
      · subst hB1
        have hq1 : q (b + 1) = true := hq
        rw [if_pos hq1]
        refine ⟨rfl, rfl, countTrain_mkSeg _ _, ?_⟩
        show countProc (mkSeg b (x :: xs.take (M - 1))) = _
        rw [countProc_mkSeg]
        simp only [List.length_cons, htk]
        omega
      · have hqf : q (b + 1) = false := hfirst (b + 1) (by omega) (by omega)
        rw [hqf, if_neg Bool.false_ne_true]
        have hmul : (B - 1) * M = (B - 1 - 1) * M + M := by
          cases B with
          | zero => omega
          | succ B0 =>
            cases B0 with
            | zero => omega
            | succ B1 => simp [Nat.succ_mul]
        have hmul2 : B * M = (B - 1) * M + M := by
          cases B with
          | zero => omega
          | succ B0 => simp [Nat.succ_mul]
        have hML : M < (x :: xs).length := by
          rw [hlen]
          omega
        obtain ⟨ih1, ih2, ih3, ih4⟩ := ih (B - 1) (b + 1) (xs.drop (M - 1))
          (by omega) (by omega)
          (by have hbb : b + 1 + (B - 1) = b + B := by omega
              rw [hbb]
              exact hq)
          (by intro j hj1 hj2
              exact hfirst j (by omega) (by omega))
          (by omega)
        refine ⟨?_, ?_, ?_, ?_⟩
        · show (runLoopF M q f (b + 1) (xs.drop (M - 1))).2.1 = b + B
          rw [ih1]
          omega
        · exact ih2
        · show countTrain (mkSeg b (x :: xs.take (M - 1)) ++
              (runLoopF M q f (b + 1) (xs.drop (M - 1))).1) = B
          rw [countTrain_append, countTrain_mkSeg, ih3]
          omega
        · show countProc (mkSeg b (x :: xs.take (M - 1)) ++
              (runLoopF M q f (b + 1) (xs.drop (M - 1))).1) = _
          rw [countProc_append, countProc_mkSeg, ih4]
          simp only [List.length_cons, htk]
          omega

/-- Claim C8: if `quit()` first returns true when evaluated after completed
batch `B`, the loop halts with the bag's batch counter equal to `B`, the engine
transitions to STOPPED, and no further `process_batch` or `train_batch` calls
occur: the trace holds exactly `B` `train_batch` calls and `min (B*M) L`
`process_batch` calls. -/
theorem claim_c8_quit_halts (M B : Nat) (q : Nat → Bool) {α : Type} (data : List α)
    (hM : 1 ≤ M) (hB : 1 ≤ B) (hq : q B = true)
    (hfirst : ∀ j, 1 ≤ j → j < B → q j = false)
    (hdata : (B - 1) * M < data.length) :
    (runLoop M q 0 data).2.1 = B ∧
    (runLoop M q 0 data).2.2 = EngineStatus.STOPPED ∧
    countTrain (runLoop M q 0 data).1 = B ∧
    countProc (runLoop M q 0 data).1 = min (B * M) data.length := by
  have h := runQuitAt hM data.length B 0 data (le_refl _) hB
    (by simpa using hq)
    (by intro j hj1 hj2
        exact hfirst j (by omega) (by omega))
    hdata
  simpa using h

/-- Witness for C8: quit first true after batch 2 with mini-batch size 2 over 5
items halts at batch 2 with 4 items processed. -/
theorem claim_c8_quit_halts_witness :
    (runLoop 2 (fun n => decide (2 ≤ n)) 0 [10, 20, 30, 40, 50]).2.1 = 2 ∧
    (runLoop 2 (fun n => decide (2 ≤ n)) 0 [10, 20, 30, 40, 50]).2.2 =
      EngineStatus.STOPPED ∧
    countTrain (runLoop 2 (fun n => decide (2 ≤ n)) 0 [10, 20, 30, 40, 50]).1 = 2 ∧
    countProc (runLoop 2 (fun n => decide (2 ≤ n)) 0 [10, 20, 30, 40, 50]).1 =
      min (2 * 2) ([10, 20, 30, 40, 50] : List Nat).length :=
  claim_c8_quit_halts 2 2 (fun n => decide (2 ≤ n)) [10, 20, 30, 40, 50]
    (by decide) (by decide) (by decide)
    (by intro j hj1 hj2
        interval_cases j
        · decide)
    (by decide)

/-! ## Claims about engine attributes and extension points -/

/-- Claim C6: reading an attribute undefined on the engine itself is forwarded
to the owned ParameterBag before failing, so every bag attribute not shadowed by
an engine attribute is readable through the engine; every construction keyword
argument (other than the bag and the data source) becomes a directly-owned
engine attribute, kept apart from the bag, and a name absent from the bag never
appears in the mapping produced by `save`. -/
theorem claim_c6_attribute_delegation (params : List Entry)
    (kwargs : List (List Char × Val))
    (hnd : (kwargs.map Prod.fst).Nodup) :
    (∀ k, ownAttr (mkEngine params kwargs) k = none →
      engineGetAttr (mkEngine params kwargs) k = getAttr params k) ∧
    (∀ k v, ownAttr (mkEngine params kwargs) k = none → getAttr params k = some v →
      engineGetAttr (mkEngine params kwargs) k = some v) ∧
    (∀ kv ∈ kwargs, ownAttr (mkEngine params kwargs) kv.1 = some kv.2) ∧
    (mkEngine params kwargs).bag = params ∧
    (∀ kv ∈ kwargs, kv.1 ∉ params.map Entry.name →
      ∀ s, (kv.1, s) ∉ save params) := by
  refine ⟨?_, ?_, ?_, rfl, ?_⟩
  · intro k hk
    unfold engineGetAttr
    rw [hk]
    rfl
  · intro k v hk hv
    unfold engineGetAttr
    rw [hk]
    exact hv
  · intro kv hkv
    unfold ownAttr mkEngine
    induction kwargs with
    | nil => exact absurd hkv (List.not_mem_nil _)
    | cons kv0 rest ih =>
      rw [List.map_cons, List.nodup_cons] at hnd
      rcases List.mem_cons.1 hkv with h | h
      · subst h
        simp [List.find?]
      · have hne : kv.1 ≠ kv0.1 := by
          intro hc
          exact hnd.1 (hc ▸ List.mem_map_of_mem Prod.fst h)
        have hp : (decide (kv0.1 = kv.1)) = false := by
          simp
          exact Ne.symm hne
        show ((kv0 :: rest).find? (fun p => decide (p.1 = kv.1))).map Prod.snd = some kv.2
        simp only [List.find?, hp]
        exact ih hnd.2 h
  · intro kv hkv hnb s hmem
    obtain ⟨e, he, _, hname, _⟩ := mem_save_iff.1 hmem
    exact hnb (hname ▸ List.mem_map_of_mem Entry.name he)

/-- Witness for C6: a `device` keyword argument is engine-owned and a bag
attribute `net` is readable through the engine. -/
theorem claim_c6_attribute_delegation_witness :
    engineGetAttr (mkEngine [Entry.mk (['n']) (Val.obj 5) true]
        [((['d'] : List Char), Val.plain 0)]) (['n']) =
      getAttr [Entry.mk (['n']) (Val.obj 5) true] (['n']) ∧
    ownAttr (mkEngine [Entry.mk (['n']) (Val.obj 5) true]
        [((['d'] : List Char), Val.plain 0)]) (['d']) = some (Val.plain 0) :=
  ⟨(claim_c6_attribute_delegation [Entry.mk (['n']) (Val.obj 5) true]
      [((['d'] : List Char), Val.plain 0)] (by decide)).1 (['n']) (by decide),
   (claim_c6_attribute_delegation [Entry.mk (['n']) (Val.obj 5) true]
      [((['d'] : List Char), Val.plain 0)] (by decide)).2.2.1
     ((['d'] : List Char), Val.plain 0) (by decide)⟩

/-- Claim C9: a concrete engine class omitting a required extension point
(`process_batch` or `train_batch`) can still be defined — the failure surfaces
at the first invocation of the engine as a ConfigurationError-kind error, never
as a generic missing-attribute error, and an engine implementing both points
never fails that check. -/
theorem claim_c9_missing_extension_point (p t : Option (Nat → Nat)) (M : Nat)
    (q : Nat → Bool) {α : Type} (b : Nat) (data : List α) :
    (invokeEngine (defineEngine p t) M q b data =
        Except.error EngineError.configurationError ↔ (p.isNone || t.isNone) = true) ∧
    invokeEngine (defineEngine p t) M q b data ≠
      Except.error EngineError.attributeError := by
  unfold invokeEngine defineEngine
  constructor
  · by_cases h : (p.isNone || t.isNone) = true
    · rw [if_pos h]
      simp [h]
    · rw [if_neg h]
      simp [h]
  · by_cases h : (p.isNone || t.isNone) = true
    · rw [if_pos h]
      simp
    · rw [if_neg h]
      simp

end EngineSpec
